import Mathlib

/-!
Verification development for the crop-to-trial prediction aggregation and
caching subsystem of `braindecode/scoring.py`.

We shallowly embed the Python source:
* `trial_preds_from_supercrop_preds` — the window-to-trial reassembler;
* the label-extraction mask of `CroppedTrialEpochScoring.on_epoch_end`;
* `_cache_net_forward_iter` — the scoped forward-iteration cache;
* the compute/broadcast phase of `CroppedTrialEpochScoring.on_epoch_end`
  and `PostEpochTrainScoring.on_epoch_end`;
* the score-and-record tail that runs the user scoring function under the
  cache and appends to the history.

Numeric arrays (numpy 2-d arrays, classes × time) are embedded as
`Mat α := List (List α)` — a list of rows, each row a list of time-step
values.  Python slicing `xs[a:]` and `xs[:, -n:]` are embedded with their
exact clamping semantics, including the degenerate `-0` case.
Fallible numpy operations (`np.concatenate` of an empty list or of
ragged rows) and Python `assert` are embedded in `Except String`.
-/

namespace Braindecode

/-- A 2-d numeric array: list of rows (classes), each row a list of
time-step values. -/
abbrev Mat (α : Type) := List (List α)

/-- Python `xs[a:]` for an integer `a` (negative indices count from the
end, out-of-range starts clamp). -/
def pySliceFrom (a : Int) (xs : List α) : List α :=
  if a < 0 then xs.drop ((xs.length : Int) + a).toNat
  else xs.drop a.toNat

/-- Numpy `m[:, -n:]` for an integer `n` (`n` may be zero or negative;
`-0:` degenerates to the whole row, exactly as in Python). -/
def npColsFromEnd (n : Int) (m : Mat α) : Mat α :=
  m.map (pySliceFrom (-n))

/-- Numpy `np.concatenate(ms, axis=1)`: errors on an empty list or when
the row counts disagree, otherwise appends the matrices row-wise. -/
def concatAxis1 : List (Mat α) → Except String (Mat α)
  | [] => .error "need at least one array to concatenate"
  | m :: ms =>
    if ms.all (fun m' => m'.length = m.length) then
      .ok (ms.foldl (fun a b => a.zipWith (· ++ ·) b) m)
    else .error "all the input array dimensions must match exactly"

/-- One iteration triple of the reassembler loop:
(supercrop_preds, i_supercrop_in_trial, i_stop_in_trial). -/
abbrev Crop (α : Type) := Mat α × Nat × Nat

/-- The loop body of `trial_preds_from_supercrop_preds` (lines 60–83 of
`scoring.py`), with state (preds_per_trial, cur_trial_preds, i_last_stop,
i_last_supercrop). -/
def reassembleLoop : List (Crop α) → List (Mat α) → List (Mat α) →
    Option Nat → Int → Except String (List (Mat α))
  | [], acc, cur, _, _ => do
    let t ← concatAxis1 cur
    pure (acc ++ [t])
  | (p, i, s) :: rest, acc, cur, lastStop, lastIdx =>
    if (i : Int) = lastIdx + 1 then
      -- same trial: drop the duplicate-overlap prefix when a previous
      -- stop exists, then append
      let p' := match lastStop with
        | some ls => npColsFromEnd ((s : Int) - (ls : Int)) p
        | none => p
      reassembleLoop rest acc (cur ++ [p']) (some s) (i : Int)
    else if i = 0 then do
      -- new trial: flush the finished trial, reset the accumulator and
      -- i_last_stop, then append the (untruncated) first window
      let t ← concatAxis1 cur
      reassembleLoop rest (acc ++ [t]) [p] (some s) (i : Int)
    else .error "supercrop numbers in new trial should start from 0"

/-- `trial_preds_from_supercrop_preds` (lines 19–83 of `scoring.py`):
assign supercrop predictions to trials while removing duplicate
predictions.  The two `assert len(..) == len(..)` guards become errors. -/
def trial_preds_from_supercrop_preds (preds : List (Mat α))
    (iSupercropInTrials : List Nat) (iStopInTrials : List Nat) :
    Except String (List (Mat α)) :=
  if preds.length ≠ iSupercropInTrials.length then
    .error "len(preds) != len(i_supercrop_in_trials)"
  else if iSupercropInTrials.length ≠ iStopInTrials.length then
    .error "len(i_supercrop_in_trials) != len(i_stop_in_trials)"
  else
    reassembleLoop (preds.zip (iSupercropInTrials.zip iStopInTrials))
      [] [] none (-1)

/-! ## Label extraction of `CroppedTrialEpochScoring.on_epoch_end`
(lines 171–177 of `scoring.py`). -/

/-- `np.diff(xs, prepend=[1])`: successive differences with a dummy `1`
prepended, so entry 0 is `xs[0] - 1`. -/
def diffPrepend1 (xs : List Nat) : List Int :=
  go 1 xs
where
  go : Int → List Nat → List Int
    | _, [] => []
    | prev, x :: r => ((x : Int) - prev) :: go (x : Int) r

/-- The mask `np.diff(i_supercrop_in_trials, prepend=[1]) != -1`
(line 175–176 of `scoring.py`, named `supercrop_0_per_trial_mask`). -/
def supercrop0PerTrialMask (idxs : List Nat) : List Bool :=
  (diffPrepend1 idxs).map (fun d => d ≠ -1)

/-- Numpy boolean-mask selection `ys[mask]`. -/
def maskSelect (mask : List Bool) (ys : List α) : List α :=
  (mask.zip ys).filterMap (fun by_ => if by_.1 then some by_.2 else none)

/-- `trial_ys = pred_results['supercrop_ys'][supercrop_0_per_trial_mask]`
(line 177 of `scoring.py`): the epoch-end label extraction. -/
def extractTrialYs (idxs : List Nat) (ys : List α) : List α :=
  maskSelect (supercrop0PerTrialMask idxs) ys

/-- `np.mean(p, axis=1)`: the per-row (per-class) mean over the time
axis (line 185 of `scoring.py`). -/
def npMeanAxis1 (m : Mat ℚ) : List ℚ :=
  m.map (fun row => row.sum / (row.length : ℚ))

/-! ## The scoped forward-iteration cache `_cache_net_forward_iter`
(lines 86–111 of `scoring.py`).

A torch tensor is embedded as a value together with its compute device;
`Tensor.to` is `yp.to(device=...)`.  The skorch net is embedded with its
class-level `forward_iter` method (real inference) plus the instance
`__dict__` entry that the cache installs: attribute lookup prefers the
instance entry.  The cached override closes over a *shared* iterator of
`y_preds`; we embed that iterator as the cached list plus a consumed
cursor, and a call of the override as draining up to `k` elements from
the shared cursor. -/

/-- A prediction batch tensor: a numeric payload on a compute device. -/
structure Tensor where
  val : Mat ℚ
  device : Nat
  deriving DecidableEq, Repr

/-- `t.to(device=d)`. -/
def Tensor.to (t : Tensor) (d : Nat) : Tensor :=
  { t with device := d }

/-- Arguments of a `forward_iter` call: the positional arguments (the
dataset among them) and the optional `device=` keyword.  All other
keyword arguments are swallowed by `**kwargs` and never read, so they
are not represented. -/
structure FwdArgs where
  positional : List Nat
  device : Option Nat
  deriving DecidableEq, Repr

/-- State of the installed `cached_forward_iter` override: the cached
predictions, the shared iterator's consumed count, and the captured
default of the `device=` parameter (evaluated once, at `def` time, to
`net.device`). -/
structure CacheState where
  ypreds : List Tensor
  consumed : Nat
  defaultDevice : Nat
  deriving DecidableEq, Repr

/-- The skorch net, as the cache sees it: a device, the class-level
bound `forward_iter` (real inference), and the instance `__dict__`
slot for `forward_iter` that the cache installs and deletes. -/
structure Net where
  device : Nat
  classForwardIter : FwdArgs → List Tensor
  dictForwardIter : Option CacheState

/-- One call of `net.forward_iter(*args)` in which the caller consumes up
to `k` yielded elements.  With the override installed this is
`cached_forward_iter` (lines 99–101): it ignores the positional
arguments, converts each yielded cached prediction to the `device=`
argument (defaulting to the captured `net.device`), and advances the
shared iterator; without it, the class-level method runs real
inference. -/
def forwardIterCall (net : Net) (a : FwdArgs) (k : Nat) :
    List Tensor × Net :=
  match net.dictForwardIter with
  | some st =>
    let d := a.device.getD st.defaultDevice
    let out := ((st.ypreds.drop st.consumed).take k).map (fun t => t.to d)
    let st' := { st with consumed := min (st.consumed + k) st.ypreds.length }
    (out, { net with dictForwardIter := some st' })
  | none => ((net.classForwardIter a).take k, net)

/-- `_cache_net_forward_iter` (lines 86–111 of `scoring.py`) as a
higher-order scoped operation: the body receives the (possibly
overridden) net and returns its outcome together with the net as it left
it.  The returned `Nat` counts executions of the `finally` teardown
(`del net.__dict__["forward_iter"]`).  With caching off the net is
yielded unchanged and no teardown runs; with caching on the override is
installed with a fresh shared iterator and the teardown removes the
`__dict__` entry whether the body succeeded or raised. -/
def cacheNetForwardIter (net : Net) (useCaching : Bool)
    (ypreds : List Tensor) (body : Net → Except ε ρ × Net) :
    Except ε ρ × Net × Nat :=
  if !useCaching then
    let (r, n') := body net
    (r, n', 0)
  else
    let st0 : CacheState :=
      { ypreds := ypreds, consumed := 0, defaultDevice := net.device }
    let net1 := { net with dictForwardIter := some st0 }
    let (r, net2) := body net1
    (r, { net2 with dictForwardIter := none }, 1)

/-! ## The compute/broadcast phase of `CroppedTrialEpochScoring.on_epoch_end`
(lines 150–201 of `scoring.py`).

A callback instance holds its `on_train` flag, the per-epoch flag
`crops_to_trials_computed`, and its buffers `y_preds_`, `y_trues_` and
`supercrop_inds_` (each `supercrop_inds_` entry contributing the pair
(i_supercrop_in_trial, i_supercrop_stop); buffers are embedded already
flattened over batches, one entry per supercrop).  The net contributes
`predict_with_supercrop_inds_and_ys(dataset_train)` — an external
inference provider — and its ordered callback list.  The epoch-end hook
runs only the compute/broadcast phase here; the score-and-record tail
(lines 203–209) is embedded separately as `scoreAndRecord`. -/

/-- Raw per-epoch prediction results, as gathered either from the net
(`on_train`) or from the instance's own buffers:
(`preds`, `supercrop_ys`, (`i_supercrop_in_trials`, `i_supercrop_stops`)). -/
structure PredResults where
  preds : List (Mat ℚ)
  supercropYs : List Int
  inds : List (Nat × Nat)

/-- One `CroppedTrialEpochScoring` callback instance. -/
structure CTEScoring where
  on_train : Bool
  crops_to_trials_computed : Bool
  y_preds : List (Mat ℚ)
  y_trues : List Int
  supercrop_inds : List (Nat × Nat)

/-- The net as the trial scorer sees it: the external
`predict_with_supercrop_inds_and_ys(dataset_train)` result. -/
structure CTESNet where
  predictTrain : PredResults

/-- Lines 153–168: gather this epoch's raw per-window results — from the
inference provider for the training split, from the instance's own
accumulated buffers for the validation split. -/
def ctesPredResults (net : CTESNet) (cb : CTEScoring) : PredResults :=
  if cb.on_train then net.predictTrain
  else { preds := cb.y_preds, supercropYs := cb.y_trues,
         inds := cb.supercrop_inds }

/-- Lines 171–188: extract per-trial labels with the boundary mask, run
the reassembler, reduce each trial to per-class time-means, and package
as the one-element list `[torch.tensor(...)]`. -/
def ctesCompute (r : PredResults) :
    Except String (List (Mat ℚ) × List Int) := do
  let idxs := r.inds.map Prod.fst
  let trialYs := extractTrialYs idxs r.supercropYs
  let trialPreds ← trial_preds_from_supercrop_preds r.preds idxs
    (r.inds.map Prod.snd)
  let yPredsPerTrial : Mat ℚ := trialPreds.map npMeanAxis1
  pure ([yPredsPerTrial], trialYs)

/-- Lines 150–201 (minus the scoring tail): the epoch-end hook of the
callback at position `i`.  Returns the updated callback list and whether
the expensive compute/broadcast path ran.  When the instance is still
fresh it computes trial predictions/labels and broadcasts them — with
the `computed` flag — to every `CroppedTrialEpochScoring` sibling on the
same split. -/
def ctesHook (net : CTESNet) (cbs : List CTEScoring) (i : Nat) :
    Except String (List CTEScoring × Bool) :=
  match cbs[i]? with
  | none => .ok (cbs, false)
  | some cb =>
    if cb.crops_to_trials_computed then .ok (cbs, false)
    else do
      let (yp, yt) ← ctesCompute (ctesPredResults net cb)
      let cbs' := cbs.map (fun c =>
        if c.on_train = cb.on_train then
          { c with y_preds := yp, y_trues := yt,
                   crops_to_trials_computed := true }
        else c)
      .ok (cbs', true)

/-- Run the epoch-end hooks sequentially on the callbacks at the given
positions, counting how often the expensive compute/broadcast path ran. -/
def ctesRun (net : CTESNet) (cbs : List CTEScoring) :
    List Nat → Except String (List CTEScoring × Nat)
  | [] => .ok (cbs, 0)
  | i :: r => do
    let (cbs1, b) ← ctesHook net cbs i
    let (cbs2, n) ← ctesRun net cbs1 r
    .ok (cbs2, (if b then 1 else 0) + n)

/-! ## The compute/broadcast phase of `PostEpochTrainScoring.on_epoch_end`
(lines 255–280 of `scoring.py`). -/

/-- One `PostEpochTrainScoring` callback instance: its per-epoch buffers
and its `target_extractor`. -/
structure PETScoring where
  y_preds : List (List ℚ)
  y_trues : List Int
  target_extractor : Int → Int

/-- The net as the retrain scorer sees it: the training batches produced
by `net.get_iterator(net.get_dataset(dataset_train), training=False)`
and the external `net.evaluation_step(batch_X, training=False)`. -/
structure PETNet where
  batches : List (Mat ℚ × Int)
  evaluationStep : Mat ℚ → List ℚ

/-- Lines 256–280 (minus the scoring tail): if this instance's
`y_preds_` buffer is still empty, re-run training-set inference in
evaluation mode, collect labels through this instance's
`target_extractor`, and broadcast both to every `PostEpochTrainScoring`
sibling. -/
def petHook (net : PETNet) (cbs : List PETScoring) (i : Nat) :
    List PETScoring × Bool :=
  match cbs[i]? with
  | none => (cbs, false)
  | some cb =>
    if cb.y_preds.length = 0 then
      let yp := net.batches.map (fun b => net.evaluationStep b.1)
      let yt := net.batches.map (fun b => cb.target_extractor b.2)
      (cbs.map (fun c => { c with y_preds := yp, y_trues := yt }), true)
    else (cbs, false)

/-- Run the retrain-scorer hooks sequentially, counting how often the
expensive recompute path ran. -/
def petRun (net : PETNet) (cbs : List PETScoring) :
    List Nat → List PETScoring × Nat
  | [] => (cbs, 0)
  | i :: r =>
    let (cbs1, b) := petHook net cbs i
    let (cbs2, n) := petRun net cbs1 r
    (cbs2, (if b then 1 else 0) + n)

/-! ## The score-and-record tail (lines 203–209 of `scoring.py`):
`current_score = self._scoring(cached_net, dataset, self.y_trues_)`
inside the cache scope, then `self._record_score(net.history, ...)`.
A raising scoring function is a body returning `.error`; the history
append happens only after the scope closed successfully. -/

/-- The tail of `on_epoch_end`: open the cache, run the user scoring
function on the cached net, close the cache, and append the score to the
history only when scoring succeeded.  Returns the outcome, the final
net, the final history, and the number of cache teardowns. -/
def scoreAndRecord (net : Net) (ypreds : List Tensor)
    (scoring : Net → Except ε ℚ × Net) (history : List ℚ) :
    Except ε ℚ × Net × List ℚ × Nat :=
  let (res, net', tdowns) := cacheNetForwardIter net true ypreds scoring
  match res with
  | .ok s => (res, net', history ++ [s], tdowns)
  | .error _ => (res, net', history, tdowns)

/-! ## Reference decomposition of the reassembler.

To state trial-count, ordering and no-overlap properties we split the
iteration triples into their maximal within-trial runs and describe the
loop's effect one run at a time. -/

/-- Split off the longest prefix of consecutive within-trial windows
(each index exactly one more than the previous, starting after index
`k`); returns (run continuation, remaining windows). -/
def takeRun : Nat → List (Crop α) → List (Crop α) × List (Crop α)
  | _, [] => ([], [])
  | k, (p, i, s) :: r =>
    if i = k + 1 then
      let ab := takeRun i r
      ((p, i, s) :: ab.1, ab.2)
    else ([], (p, i, s) :: r)

/-- Split the iteration triples into trials (fuelled recursion; the
fuel is always sufficient when it is at least the list length): each
trial is one window followed by its consecutive continuation. -/
def splitTrialsFuel : Nat → List (Crop α) → List (List (Crop α))
  | 0, _ => []
  | _, [] => []
  | fuel + 1, (p, i, s) :: r =>
    ((p, i, s) :: (takeRun i r).1) :: splitTrialsFuel fuel (takeRun i r).2

/-- Split the iteration triples into trials: each trial is one window
followed by its consecutive continuation. -/
def splitTrials (ts : List (Crop α)) : List (List (Crop α)) :=
  splitTrialsFuel ts.length ts

/-- The within-trial accumulation: starting from an accumulator `cur`,
last stop `ls` and last index `k`, append each further window of the
run with its duplicate-overlap prefix removed.  Returns the final
(accumulator, last stop, last index). -/
def accumRun : List (Crop α) → List (Mat α) → Nat → Nat →
    List (Mat α) × Nat × Nat
  | [], cur, ls, k => (cur, ls, k)
  | (p, _i, s) :: r, cur, ls, _k =>
    accumRun r (cur ++ [npColsFromEnd ((s : Int) - (ls : Int)) p]) s _i

/-- Reference per-trial processing: the first window untruncated, each
later window deduplicated against the previous stop, all concatenated
along the time axis. -/
def processTrial : List (Crop α) → Except String (Mat α)
  | [] => concatAxis1 []
  | (p, _, s) :: rs => concatAxis1 (accumRun rs [p] s 0).1

/-- All window indices of `l` continue from previous index `k`: each is
one more than its predecessor, or `0` (a new trial). -/
def chainIdx : Nat → List (Crop α) → Bool
  | _, [] => true
  | k, (_, i, _) :: r => (i == k + 1 || i == 0) && chainIdx i r

/-- Well-formed iteration triples: non-empty, first window index `0`,
and every later index one more than its predecessor or `0`. -/
def wfIdxs : List (Crop α) → Bool
  | [] => false
  | (_, i, _) :: r => i == 0 && chainIdx 0 r

/-- The window-index chain check the loop itself enforces, from an
integer last index (`-1` before the first window). -/
def chainOKInt : Int → List (Crop α) → Bool
  | _, [] => true
  | k, (_, i, _) :: r => ((i : Int) == k + 1 || i == 0) && chainOKInt (i : Int) r

/-- Within-trial no-overlap from last stop `ls`: each further window's
rows have length exactly `stop - ls`. -/
def noOverlapFrom : Nat → List (Crop α) → Bool
  | _, [] => true
  | ls, (p, _, s) :: r =>
    p.all (fun row => (row.length : Int) == (s : Int) - (ls : Int)) &&
      noOverlapFrom s r

/-- A run of windows never overlaps: every successor window starts right
after the previous window's stop. -/
def noOverlapRun : List (Crop α) → Bool
  | [] => true
  | (_, _, s) :: rs => noOverlapFrom s rs

/-- Process each trial run in order, propagating the first error. -/
def trialsResult : List (List (Crop α)) → Except String (List (Mat α))
  | [] => .ok []
  | run :: rs =>
    match processTrial run, trialsResult rs with
    | .error e, _ => .error e
    | .ok _, .error e => .error e
    | .ok t, .ok rest => .ok (t :: rest)

/-- Flushing the accumulator `cur` and then producing the trials of `R`
(with `acc` already emitted). -/
def flushResult (acc cur : List (Mat α)) (R : List (List (Crop α))) :
    Except String (List (Mat α)) :=
  match concatAxis1 cur with
  | .error e => .error e
  | .ok t =>
    match trialsResult R with
    | .error e => .error e
    | .ok rest => .ok (acc ++ t :: rest)

/-- Plain concatenation of every trial run, in order. -/
def plainTrialsResult : List (List (Crop α)) → Except String (List (Mat α))
  | [] => .ok []
  | run :: rs =>
    match concatAxis1 (run.map (fun t => t.1)), plainTrialsResult rs with
    | .error e, _ => .error e
    | .ok _, .error e => .error e
    | .ok t, .ok rest => .ok (t :: rest)

/-- The window-index chain condition over the bare index list, from an
integer last index (`-1` before the first window). -/
def idxChainFrom : Int → List Nat → Bool
  | _, [] => true
  | k, i :: r => (((i : Int)) == k + 1 || i == 0) && idxChainFrom (i : Int) r

/-- The index contract the loop enforces: each window index is one more
than its predecessor or `0`, with virtual predecessor `-1`. -/
def idxSeqOK (idxs : List Nat) : Bool :=
  idxChainFrom (-1) idxs

theorem takeRun_snd_length (k : Nat) (l : List (Crop α)) :
    (takeRun k l).2.length ≤ l.length := by
  induction l generalizing k with
  | nil => simp [takeRun]
  | cons t r ih =>
    obtain ⟨p, i, s⟩ := t
    simp only [takeRun]
    split
    · exact le_trans (ih i) (Nat.le_succ _)
    · exact le_refl _

/-- Enough fuel makes the fuelled split independent of the fuel. -/
theorem splitTrialsFuel_fuel_irrel (f1 f2 : Nat) (ts : List (Crop α))
    (h1 : ts.length ≤ f1) (h2 : ts.length ≤ f2) :
    splitTrialsFuel f1 ts = splitTrialsFuel f2 ts := by
  induction f1 generalizing f2 ts with
  | zero =>
    have : ts = [] := List.length_eq_zero.mp (Nat.le_zero.mp h1)
    subst this
    cases f2 <;> rfl
  | succ f1 ih =>
    cases ts with
    | nil => cases f2 <;> rfl
    | cons t r =>
      obtain ⟨p, i, s⟩ := t
      cases f2 with
      | zero => simp at h2
      | succ f2 =>
        simp only [splitTrialsFuel]
        congr 1
        have hb : (takeRun i r).2.length ≤ r.length := takeRun_snd_length i r
        exact ih f2 (takeRun i r).2
          (le_trans hb (Nat.succ_le_succ_iff.mp h1))
          (le_trans hb (Nat.succ_le_succ_iff.mp h2))

/-- Any fuel at least the list length computes the split. -/
theorem splitTrialsFuel_eq (fuel : Nat) (ts : List (Crop α))
    (h : ts.length ≤ fuel) :
    splitTrialsFuel fuel ts = splitTrials ts :=
  splitTrialsFuel_fuel_irrel fuel ts.length ts h (le_refl _)

theorem splitTrials_cons (p : Mat α) (i s : Nat) (r : List (Crop α)) :
    splitTrials ((p, i, s) :: r) =
      ((p, i, s) :: (takeRun i r).1) :: splitTrials (takeRun i r).2 := by
  show splitTrialsFuel (r.length + 1) ((p, i, s) :: r) = _
  simp only [splitTrialsFuel]
  congr 1
  exact splitTrialsFuel_eq r.length (takeRun i r).2 (takeRun_snd_length i r)

theorem bindOk (a : σ) (f : σ → Except ε β) :
    ((Except.ok a : Except ε σ) >>= f) = f a := rfl

theorem bindError (e : ε) (f : σ → Except ε β) :
    ((Except.error e : Except ε σ) >>= f) = .error e := rfl

theorem pureOk (a : σ) : (pure a : Except ε σ) = .ok a := rfl

theorem reassembleLoop_nil (acc cur : List (Mat α)) (lastStop : Option Nat)
    (k : Int) :
    reassembleLoop [] acc cur lastStop k =
      match concatAxis1 cur with
      | .error e => .error e
      | .ok t => .ok (acc ++ [t]) := by
  cases h : concatAxis1 cur <;> simp [reassembleLoop, h]

/-- Loop invariant: from a mid-trial state (`some ls`, last index `k`),
running the loop on any index-chain-respecting remainder first finishes
the current run, then flushes, then emits each further trial. -/
theorem reassembleLoop_chain (l : List (Crop α)) (k : Nat)
    (acc cur : List (Mat α)) (ls : Nat) (h : chainIdx k l = true) :
    reassembleLoop l acc cur (some ls) (k : Int) =
      flushResult acc (accumRun (takeRun k l).1 cur ls k).1
        (splitTrials (takeRun k l).2) := by
  induction l generalizing k acc cur ls with
  | nil =>
    simp only [takeRun, accumRun, splitTrials, splitTrialsFuel, flushResult,
      reassembleLoop_nil, trialsResult]
  | cons t r ih =>
    obtain ⟨p, i, s⟩ := t
    simp only [chainIdx, Bool.and_eq_true, Bool.or_eq_true, beq_iff_eq] at h
    obtain ⟨hi, hr⟩ := h
    rcases hi with hi | hi
    · -- same trial: i = k + 1
      have hcond : ((i : Nat) : Int) = (k : Int) + 1 := by
        rw [hi]; push_cast; ring
      rw [show reassembleLoop ((p, i, s) :: r) acc cur (some ls) (k : Int) =
          reassembleLoop r acc
            (cur ++ [npColsFromEnd ((s : Int) - (ls : Int)) p]) (some s)
            (i : Int) from by
        simp [reassembleLoop, hcond]]
      rw [ih i acc (cur ++ [npColsFromEnd ((s : Int) - (ls : Int)) p]) s hr]
      simp only [takeRun, if_pos hi, accumRun]
    · -- new trial: i = 0
      subst hi
      have hcond : ¬((0 : Int) = (k : Int) + 1) := by omega
      have htk : takeRun k ((p, 0, s) :: r) = ([], (p, 0, s) :: r) := by
        simp [takeRun]
      rw [htk]
      simp only [accumRun]
      rw [splitTrials_cons p 0 s r]
      cases hc : concatAxis1 cur with
      | error e =>
        have hstep : reassembleLoop ((p, 0, s) :: r) acc cur (some ls)
            (k : Int) = .error e := by
          simp [reassembleLoop, hcond, hc, bindError]
        rw [hstep]
        simp [flushResult, hc]
      | ok t =>
        have hstep : reassembleLoop ((p, 0, s) :: r) acc cur (some ls)
            (k : Int) = reassembleLoop r (acc ++ [t]) [p] (some s)
              (0 : Int) := by
          simp [reassembleLoop, hcond, hc, bindOk]
        have ihz := ih 0 (acc ++ [t]) [p] s hr
        rw [Nat.cast_zero] at ihz
        rw [hstep, ihz]
        simp only [flushResult, hc, trialsResult, processTrial]
        cases hc2 : concatAxis1 (accumRun (takeRun 0 r).1 [p] s 0).1 with
        | error e => simp [hc2]
        | ok t2 =>
          cases hm : trialsResult (splitTrials (takeRun 0 r).2) with
          | error e => simp [hc2, hm]
          | ok rest => simp [hc2, hm]

/-- On well-formed input the loop produces exactly the per-run results,
in occurrence order. -/
theorem reassembleLoop_wf (ts : List (Crop α)) (h : wfIdxs ts = true) :
    reassembleLoop ts [] [] none (-1) = trialsResult (splitTrials ts) := by
  cases ts with
  | nil => simp [wfIdxs] at h
  | cons t r =>
    obtain ⟨p, i, s⟩ := t
    simp only [wfIdxs, Bool.and_eq_true, beq_iff_eq] at h
    obtain ⟨hi, hr⟩ := h
    subst hi
    have hstep : reassembleLoop ((p, 0, s) :: r) [] [] none (-1) =
        reassembleLoop r [] [p] (some s) ((0 : Nat) : Int) := by
      simp [reassembleLoop]
    rw [hstep, reassembleLoop_chain r 0 [] [p] s hr, splitTrials_cons]
    simp only [flushResult, trialsResult, processTrial]
    cases hc : concatAxis1 (accumRun (takeRun 0 r).1 [p] s 0).1 <;>
      cases hm : trialsResult (splitTrials (takeRun 0 r).2) <;> simp

/-- Under the index-chain invariant, the trial count of the remainder
after the current run equals the number of zero window indices. -/
theorem splitTrials_takeRun_length (l : List (Crop α)) (k : Nat)
    (h : chainIdx k l = true) :
    (splitTrials (takeRun k l).2).length =
      l.countP (fun t => t.2.1 == 0) := by
  induction l generalizing k with
  | nil => simp [takeRun, splitTrials, splitTrialsFuel]
  | cons t r ih =>
    obtain ⟨p, i, s⟩ := t
    simp only [chainIdx, Bool.and_eq_true, Bool.or_eq_true, beq_iff_eq] at h
    obtain ⟨hi, hr⟩ := h
    rcases hi with hi | hi
    · have hne : ¬(i == 0) = true := by simp [hi]
      simp only [takeRun, if_pos hi, List.countP_cons, hne, if_false]
      rw [ih i hr]
      simp
    · subst hi
      have hif : ¬((0 : Nat) = k + 1) := by omega
      simp only [takeRun, if_neg hif, splitTrials_cons, List.length_cons,
        List.countP_cons]
      rw [ih 0 hr]
      simp

/-- The number of trials equals the number of zero window indices, for
well-formed input. -/
theorem splitTrials_length_eq_countZeros (ts : List (Crop α))
    (h : wfIdxs ts = true) :
    (splitTrials ts).length = ts.countP (fun t => t.2.1 == 0) := by
  cases ts with
  | nil => simp [wfIdxs] at h
  | cons t r =>
    obtain ⟨p, i, s⟩ := t
    simp only [wfIdxs, Bool.and_eq_true, beq_iff_eq] at h
    obtain ⟨hi, hr⟩ := h
    subst hi
    rw [splitTrials_cons]
    simp only [List.length_cons, List.countP_cons]
    rw [splitTrials_takeRun_length r 0 hr]
    simp

theorem takeRun_join (k : Nat) (l : List (Crop α)) :
    (takeRun k l).1 ++ (takeRun k l).2 = l := by
  induction l generalizing k with
  | nil => simp [takeRun]
  | cons t r ih =>
    obtain ⟨p, i, s⟩ := t
    simp only [takeRun]
    split
    · simp only [List.cons_append, List.cons.injEq, true_and]
      exact ih i
    · simp

theorem splitTrials_join (ts : List (Crop α)) :
    (splitTrials ts).flatten = ts := by
  cases ts with
  | nil => simp [splitTrials, splitTrialsFuel]
  | cons t r =>
    obtain ⟨p, i, s⟩ := t
    rw [splitTrials_cons]
    simp only [List.flatten_cons, List.cons_append]
    rw [splitTrials_join (takeRun i r).2, takeRun_join]
termination_by ts.length
decreasing_by
  simp_wf
  exact Nat.lt_succ_of_le (takeRun_snd_length _ _)

theorem concatAxis1_ok (ms : List (Mat α)) (rows : Nat) (hne : ms ≠ [])
    (hr : ∀ m ∈ ms, m.length = rows) :
    ∃ out, concatAxis1 ms = .ok out := by
  cases ms with
  | nil => exact absurd rfl hne
  | cons m ms' =>
    have hall : ms'.all (fun m' => m'.length = m.length) = true := by
      rw [List.all_eq_true]
      intro x hx
      have h1 := hr x (List.mem_cons_of_mem m hx)
      have h2 := hr m (List.mem_cons_self _ _)
      simp [h1, h2]
    exact ⟨ms'.foldl (fun a b => a.zipWith (· ++ ·) b) m,
      by simp [concatAxis1, hall]⟩

theorem accumRun_rows (a : List (Crop α)) (cur : List (Mat α))
    (ls k rows : Nat) (hc : ∀ m ∈ cur, m.length = rows)
    (ha : ∀ t ∈ a, (t : Crop α).1.length = rows) :
    ∀ m ∈ (accumRun a cur ls k).1, m.length = rows := by
  induction a generalizing cur ls k with
  | nil => simpa [accumRun] using hc
  | cons t r ih =>
    obtain ⟨p, i, s⟩ := t
    simp only [accumRun]
    apply ih
    · intro m hm
      rcases List.mem_append.mp hm with h | h
      · exact hc m h
      · rw [List.mem_singleton.mp h]
        simpa [npColsFromEnd] using ha (p, i, s) (List.mem_cons_self _ _)
    · intro t ht
      exact ha t (List.mem_cons_of_mem _ ht)

theorem accumRun_extends (a : List (Crop α)) (cur : List (Mat α))
    (ls k : Nat) :
    ∃ tail, (accumRun a cur ls k).1 = cur ++ tail := by
  induction a generalizing cur ls k with
  | nil => exact ⟨[], by simp [accumRun]⟩
  | cons t r ih =>
    obtain ⟨p, i, s⟩ := t
    simp only [accumRun]
    obtain ⟨tail, htail⟩ :=
      ih (cur ++ [npColsFromEnd ((s : Int) - (ls : Int)) p]) s i
    exact ⟨[npColsFromEnd ((s : Int) - (ls : Int)) p] ++ tail,
      by rw [htail, List.append_assoc]⟩

theorem processTrial_ok (run : List (Crop α)) (rows : Nat) (hne : run ≠ [])
    (hr : ∀ t ∈ run, (t : Crop α).1.length = rows) :
    ∃ out, processTrial run = .ok out := by
  cases run with
  | nil => exact absurd rfl hne
  | cons t rs =>
    obtain ⟨p, i, s⟩ := t
    simp only [processTrial]
    apply concatAxis1_ok _ rows
    · obtain ⟨tail, htail⟩ := accumRun_extends rs [p] s 0
      simp [htail]
    · apply accumRun_rows
      · intro m hm
        rw [List.mem_singleton.mp hm]
        exact hr (p, i, s) (List.mem_cons_self _ _)
      · intro t ht
        exact hr t (List.mem_cons_of_mem _ ht)

theorem trialsResult_ok (R : List (List (Crop α)))
    (h : ∀ run ∈ R, ∃ o, processTrial run = .ok o) :
    ∃ outs, trialsResult R = .ok outs ∧ outs.length = R.length := by
  induction R with
  | nil => exact ⟨[], rfl, rfl⟩
  | cons run rs ih =>
    obtain ⟨o, ho⟩ := h run (List.mem_cons_self _ _)
    obtain ⟨outs, houts, hlen⟩ :=
      ih (fun r hr => h r (List.mem_cons_of_mem _ hr))
    exact ⟨o :: outs, by simp [trialsResult, ho, houts], by simp [hlen]⟩

/-- Every produced run is non-empty. -/
theorem splitTrials_run_ne_nil (ts : List (Crop α)) :
    ∀ run ∈ splitTrials ts, run ≠ [] := by
  cases ts with
  | nil => simp [splitTrials, splitTrialsFuel]
  | cons t r =>
    obtain ⟨p, i, s⟩ := t
    rw [splitTrials_cons]
    intro run hrun
    rcases List.mem_cons.mp hrun with h | h
    · subst h; simp
    · exact splitTrials_run_ne_nil (takeRun i r).2 run h
termination_by ts.length
decreasing_by
  simp_wf
  exact Nat.lt_succ_of_le (takeRun_snd_length _ _)

/-- Every window of a produced run is a window of the input. -/
theorem splitTrials_run_mem (ts : List (Crop α)) (run : List (Crop α))
    (hrun : run ∈ splitTrials ts) (t : Crop α) (ht : t ∈ run) : t ∈ ts := by
  rw [← splitTrials_join ts]
  exact List.mem_flatten.mpr ⟨run, hrun, ht⟩

/-! ## Error behaviour of the reassembler (contract violations). -/

theorem chainOKInt_zip (preds : List (Mat α)) (idxs stops : List Nat)
    (k : Int) (h1 : preds.length = idxs.length)
    (h2 : idxs.length = stops.length) :
    chainOKInt k (preds.zip (idxs.zip stops)) = idxChainFrom k idxs := by
  induction preds generalizing idxs stops k with
  | nil =>
    cases idxs with
    | nil => simp [chainOKInt, idxChainFrom]
    | cons i ir => simp at h1
  | cons p pr ih =>
    cases idxs with
    | nil => simp at h1
    | cons i ir =>
      cases stops with
      | nil => simp at h2
      | cons s sr =>
        simp only [List.zip_cons_cons, chainOKInt, idxChainFrom]
        have hih := ih ir sr (i : Int) (by simpa using h1) (by simpa using h2)
        simp only [List.zip] at hih
        rw [hih]

/-- Stepping the loop on a same-trial window. -/
theorem reassembleLoop_cons_same (p : Mat α) (i s : Nat)
    (r : List (Crop α)) (acc cur : List (Mat α)) (lastStop : Option Nat)
    (k : Int) (hc : (i : Int) = k + 1) :
    reassembleLoop ((p, i, s) :: r) acc cur lastStop k =
      reassembleLoop r acc
        (cur ++ [match lastStop with
          | some ls => npColsFromEnd ((s : Int) - (ls : Int)) p
          | none => p]) (some s) (i : Int) := by
  cases lastStop <;> simp [reassembleLoop, hc]

/-- A violated index chain makes the loop raise (either the new-trial
assertion or an earlier concatenation error), never return output. -/
theorem reassembleLoop_chain_violation (l : List (Crop α))
    (acc cur : List (Mat α)) (lastStop : Option Nat) (k : Int)
    (h : chainOKInt k l = false) :
    ∃ e, reassembleLoop l acc cur lastStop k = .error e := by
  induction l generalizing acc cur lastStop k with
  | nil => simp [chainOKInt] at h
  | cons t r ih =>
    obtain ⟨p, i, s⟩ := t
    simp only [chainOKInt, Bool.and_eq_false_iff, Bool.or_eq_false_iff,
      beq_eq_false_iff_ne, ne_eq] at h
    rcases h with ⟨hne1, hne2⟩ | hrec
    · have hne2' : ¬(i = 0) := by
        intro h0
        exact hne2 (by simp [h0])
      exact ⟨"supercrop numbers in new trial should start from 0",
        by simp [reassembleLoop, hne1, hne2']⟩
    · by_cases hc : (i : Int) = k + 1
      · obtain ⟨e, he⟩ := ih acc
          (cur ++ [match lastStop with
            | some ls => npColsFromEnd ((s : Int) - (ls : Int)) p
            | none => p]) (some s) (i : Int) hrec
        refine ⟨e, ?_⟩
        rw [reassembleLoop_cons_same p i s r acc cur lastStop k hc]
        exact he
      · by_cases h0 : i = 0
        · subst h0
          rw [Nat.cast_zero] at hc
          cases hcc : concatAxis1 cur with
          | error e =>
            exact ⟨e, by simp [reassembleLoop, hc, hcc, bindError]⟩
          | ok t =>
            obtain ⟨e, he⟩ := ih (acc ++ [t]) [p] (some s) ((0 : Nat) : Int)
              hrec
            rw [Nat.cast_zero] at he
            refine ⟨e, ?_⟩
            rw [show reassembleLoop ((p, 0, s) :: r) acc cur lastStop k =
                reassembleLoop r (acc ++ [t]) [p] (some s) (0 : Int)
                from by simp [reassembleLoop, hc, hcc, bindOk]]
            exact he
        · exact ⟨"supercrop numbers in new trial should start from 0",
            by simp [reassembleLoop, hc, h0]⟩

/-! ## The no-overlap special case. -/

/-- When every row of `p` has length exactly `n`, taking the last `n`
columns is the identity. -/
theorem npColsFromEnd_full (p : Mat α) (n : Int)
    (h : ∀ row ∈ p, (row.length : Int) = n) :
    npColsFromEnd n p = p := by
  unfold npColsFromEnd
  have hcongr : ∀ row ∈ p, pySliceFrom (-n) row = id row := by
    intro row hrow
    have hl := h row hrow
    unfold pySliceFrom
    by_cases hneg : -n < 0
    · rw [if_pos hneg]
      have : ((row.length : Int) + -n).toNat = 0 := by omega
      simp [this]
    · rw [if_neg hneg]
      have hn0 : n = 0 := by omega
      have : row.length = 0 := by omega
      simp [hn0, List.length_eq_zero.mp this]
  rw [List.map_congr_left hcongr, List.map_id]

/-- Under the no-overlap condition the within-trial accumulation keeps
every window whole. -/
theorem accumRun_noOverlap (rs : List (Crop α)) (cur : List (Mat α))
    (ls k : Nat) (h : noOverlapFrom ls rs = true) :
    (accumRun rs cur ls k).1 = cur ++ rs.map (fun t => t.1) := by
  induction rs generalizing cur ls k with
  | nil => simp [accumRun]
  | cons t r ih =>
    obtain ⟨p, i, s⟩ := t
    simp only [noOverlapFrom, Bool.and_eq_true, List.all_eq_true] at h
    obtain ⟨hrows, hrest⟩ := h
    simp only [accumRun]
    rw [npColsFromEnd_full p ((s : Int) - (ls : Int))
      (fun row hrow => by simpa using hrows row hrow)]
    rw [ih (cur ++ [p]) s i hrest]
    simp

/-- Under the no-overlap condition a trial is processed as the plain
concatenation of its windows. -/
theorem processTrial_noOverlap (run : List (Crop α))
    (h : noOverlapRun run = true) :
    processTrial run = concatAxis1 (run.map (fun t => t.1)) := by
  cases run with
  | nil => rfl
  | cons t rs =>
    obtain ⟨p, i, s⟩ := t
    simp only [processTrial, noOverlapRun] at h ⊢
    rw [accumRun_noOverlap rs [p] s 0 h]
    simp

theorem trialsResult_noOverlap (R : List (List (Crop α)))
    (h : ∀ run ∈ R, noOverlapRun run = true) :
    trialsResult R = plainTrialsResult R := by
  induction R with
  | nil => rfl
  | cons run rs ih =>
    simp only [trialsResult, plainTrialsResult]
    rw [processTrial_noOverlap run (h run (List.mem_cons_self _ _)),
      ih (fun r hr => h r (List.mem_cons_of_mem _ hr))]

/-- Counting zero window indices through the zip. -/
theorem countP_zip_eq_count_zero (preds : List (Mat α))
    (idxs stops : List Nat) (h1 : preds.length = idxs.length)
    (h2 : idxs.length = stops.length) :
    (preds.zip (idxs.zip stops)).countP (fun t => t.2.1 == 0) =
      idxs.count 0 := by
  induction preds generalizing idxs stops with
  | nil =>
    cases idxs with
    | nil => rfl
    | cons i ir => simp at h1
  | cons p pr ih =>
    cases idxs with
    | nil => simp at h1
    | cons i ir =>
      cases stops with
      | nil => simp at h2
      | cons s sr =>
        simp only [List.zip_cons_cons, List.countP_cons, List.count_cons]
        rw [ih ir sr (by simpa using h1) (by simpa using h2)]

/-! ## Broadcast idempotence of the epoch-end hooks. -/

/-- Once every `CroppedTrialEpochScoring` instance is marked computed,
further epoch-end hooks skip the expensive path and change nothing. -/
theorem ctesRun_all_computed (net : CTESNet) (cbs : List CTEScoring)
    (h : ∀ cb ∈ cbs, cb.crops_to_trials_computed = true) (l : List Nat) :
    ctesRun net cbs l = .ok (cbs, 0) := by
  induction l with
  | nil => rfl
  | cons i r ih =>
    have hhook : ctesHook net cbs i = .ok (cbs, false) := by
      unfold ctesHook
      cases hg : cbs[i]? with
      | none => rfl
      | some cb => simp [h cb (List.getElem?_mem hg)]
    simp [ctesRun, hhook, bindOk, ih]

/-- The first fresh trial-scorer hook computes and broadcasts to the
whole same-split group. -/
theorem ctesHook_first (net : CTESNet) (c0 : CTEScoring)
    (cr : List CTEScoring) (b : Bool) (v : List (Mat ℚ) × List Int)
    (hsplit : ∀ cb ∈ c0 :: cr, cb.on_train = b)
    (hfresh0 : c0.crops_to_trials_computed = false)
    (hcomp : ctesCompute (ctesPredResults net c0) = .ok v) :
    ctesHook net (c0 :: cr) 0 = .ok ((c0 :: cr).map (fun c =>
      { c with y_preds := v.1, y_trues := v.2,
               crops_to_trials_computed := true }), true) := by
  unfold ctesHook
  simp only [List.getElem?_cons_zero, hfresh0, Bool.false_eq_true,
    if_false, hcomp, bindOk]
  congr 2
  apply List.map_congr_left
  intro c hc
  have h1 := hsplit c hc
  have h0 := hsplit c0 (List.mem_cons_self _ _)
  rw [h1, h0]
  simp

/-- Running the trial-scorer epoch-end hooks over the whole group runs
the expensive path exactly once and broadcasts one shared result. -/
theorem ctesRun_once (net : CTESNet) (c0 : CTEScoring)
    (cr : List CTEScoring) (b : Bool) (v : List (Mat ℚ) × List Int)
    (hsplit : ∀ cb ∈ c0 :: cr, cb.on_train = b)
    (hfresh : ∀ cb ∈ c0 :: cr, cb.crops_to_trials_computed = false)
    (hcomp : ctesCompute (ctesPredResults net c0) = .ok v) :
    ctesRun net (c0 :: cr) (List.range (c0 :: cr).length) =
      .ok ((c0 :: cr).map (fun c =>
        { c with y_preds := v.1, y_trues := v.2,
                 crops_to_trials_computed := true }), 1) := by
  rw [show (c0 :: cr).length = cr.length + 1 from rfl,
    List.range_succ_eq_map]
  have hh := ctesHook_first net c0 cr b v hsplit
    (hfresh c0 (List.mem_cons_self _ _)) hcomp
  have hdone : ∀ cb ∈ (c0 :: cr).map (fun c =>
      { c with y_preds := v.1, y_trues := v.2,
               crops_to_trials_computed := true }),
      cb.crops_to_trials_computed = true := by
    intro cb hcb
    obtain ⟨c, _, rfl⟩ := List.mem_map.mp hcb
    rfl
  simp only [ctesRun, hh, bindOk]
  rw [ctesRun_all_computed net _ hdone _]
  simp [bindOk]

/-- Once every `PostEpochTrainScoring` instance holds a non-empty
prediction buffer, further hooks skip the recompute path. -/
theorem petRun_all_filled (net : PETNet) (cbs : List PETScoring)
    (h : ∀ cb ∈ cbs, cb.y_preds ≠ []) (l : List Nat) :
    petRun net cbs l = (cbs, 0) := by
  induction l with
  | nil => rfl
  | cons i r ih =>
    have hhook : petHook net cbs i = (cbs, false) := by
      unfold petHook
      cases hg : cbs[i]? with
      | none => rfl
      | some cb =>
        have hne : ¬(cb.y_preds.length = 0) := by
          simpa [List.length_eq_zero] using h cb (List.getElem?_mem hg)
        simp [hne]
    simp [petRun, hhook, ih]

/-- The first retrain-scorer hook with an empty buffer recomputes and
broadcasts to every sibling. -/
theorem petHook_first (net : PETNet) (p0 : PETScoring)
    (pr : List PETScoring) (hempty0 : p0.y_preds = []) :
    petHook net (p0 :: pr) 0 = ((p0 :: pr).map (fun c =>
      { c with
        y_preds := net.batches.map (fun bt => net.evaluationStep bt.1),
        y_trues := net.batches.map (fun bt => p0.target_extractor bt.2) }),
      true) := by
  unfold petHook
  simp [hempty0]

/-- Running the retrain-scorer hooks over the whole group recomputes
exactly once and broadcasts one shared result. -/
theorem petRun_once (net : PETNet) (p0 : PETScoring)
    (pr : List PETScoring)
    (hempty : ∀ cb ∈ p0 :: pr, cb.y_preds = [])
    (hbatch : net.batches ≠ []) :
    petRun net (p0 :: pr) (List.range (p0 :: pr).length) =
      ((p0 :: pr).map (fun c =>
        { c with
          y_preds := net.batches.map (fun bt => net.evaluationStep bt.1),
          y_trues := net.batches.map (fun bt => p0.target_extractor bt.2) }),
        1) := by
  rw [show (p0 :: pr).length = pr.length + 1 from rfl,
    List.range_succ_eq_map]
  have hh := petHook_first net p0 pr (hempty p0 (List.mem_cons_self _ _))
  have hfilled : ∀ cb ∈ (p0 :: pr).map (fun c =>
      { c with
        y_preds := net.batches.map
          (fun bt : Mat ℚ × Int => net.evaluationStep bt.1),
        y_trues := net.batches.map
          (fun bt : Mat ℚ × Int => p0.target_extractor bt.2) }),
      cb.y_preds ≠ [] := by
    intro cb hcb
    obtain ⟨c, _, rfl⟩ := List.mem_map.mp hcb
    simpa using hbatch
  simp only [petRun, hh]
  rw [petRun_all_filled net _ hfilled _]
  simp

/-! ## Claim theorems. -/

/-- C8: on predictions `[[1,2,3]]`,`[[4,5,6]]` (two windows of 3
time-steps, one class row), window indices `[0,1]` and stop offsets
`[3,5]`, the reassembler returns exactly one trial of 5 time-steps whose
single class row is `[1,2,3,5,6]` — window 0's 3 steps followed by
window 1's last 2 steps. -/
theorem claim_C8 :
    trial_preds_from_supercrop_preds
      ([[[1, 2, 3]], [[4, 5, 6]]] : List (Mat Int)) [0, 1] [3, 5]
      = .ok [[[1, 2, 3, 5, 6]]] := rfl

/-- For well-formed input the reassembler succeeds with the run-by-run
reference result, one output per zero window index.  (Shared backbone of
the trial-count/order and no-overlap claims.) -/
theorem reassemble_wf_ok (preds : List (Mat α)) (idxs stops : List Nat)
    (rows : Nat) (h1 : preds.length = idxs.length)
    (h2 : idxs.length = stops.length)
    (hwf : wfIdxs (preds.zip (idxs.zip stops)) = true)
    (hr : ∀ m ∈ preds, m.length = rows) :
    ∃ outs, trial_preds_from_supercrop_preds preds idxs stops = .ok outs ∧
      outs.length = idxs.count 0 ∧
      trialsResult (splitTrials (preds.zip (idxs.zip stops))) = .ok outs := by
  have hruns : ∀ run ∈ splitTrials (preds.zip (idxs.zip stops)),
      ∃ o, processTrial run = .ok o := by
    intro run hrun
    apply processTrial_ok run rows
      (splitTrials_run_ne_nil (preds.zip (idxs.zip stops)) run hrun)
    intro t ht
    have hmem := splitTrials_run_mem (preds.zip (idxs.zip stops)) run
      hrun t ht
    obtain ⟨m, i, s⟩ := t
    exact hr m (List.of_mem_zip hmem).1
  obtain ⟨outs, houts, hlen⟩ := trialsResult_ok _ hruns
  refine ⟨outs, ?_, ?_, houts⟩
  · unfold trial_preds_from_supercrop_preds
    simp only [h1, h2, ne_eq, not_true_eq_false, if_false]
    rw [reassembleLoop_wf _ hwf]
    exact houts
  · rw [hlen, splitTrials_length_eq_countZeros _ hwf,
      countP_zip_eq_count_zero preds idxs stops h1 h2]

/-- C7: for well-formed input (equal lengths, non-empty, window indices
starting at 0 and incrementing by 1 within each trial, uniform class-row
count), the reassembler succeeds, returns as many per-trial arrays as
there are `0`s in the window-index sequence, and returns the trials in
occurrence order (it equals the run-by-run reference result over
`splitTrials`, which processes the maximal within-trial runs left to
right). -/
theorem claim_C7 (preds : List (Mat α)) (idxs stops : List Nat)
    (rows : Nat) (h1 : preds.length = idxs.length)
    (h2 : idxs.length = stops.length)
    (hwf : wfIdxs (preds.zip (idxs.zip stops)) = true)
    (hr : ∀ m ∈ preds, m.length = rows) :
    ∃ outs, trial_preds_from_supercrop_preds preds idxs stops = .ok outs ∧
      outs.length = idxs.count 0 ∧
      trialsResult (splitTrials (preds.zip (idxs.zip stops))) = .ok outs :=
  reassemble_wf_ok preds idxs stops rows h1 h2 hwf hr

/-- C7 witness: two trials, `[0,1,0]` window indices, two `0`s. -/
theorem claim_C7_witness :
    ∃ outs, trial_preds_from_supercrop_preds
        ([[[1, 2]], [[3, 4]], [[5, 6]]] : List (Mat Int))
        [0, 1, 0] [2, 3, 2] = .ok outs ∧
      outs.length = ([0, 1, 0] : List Nat).count 0 ∧
      trialsResult (splitTrials
        (([[[1, 2]], [[3, 4]], [[5, 6]]] : List (Mat Int)).zip
          (([0, 1, 0] : List Nat).zip [2, 3, 2]))) = .ok outs :=
  claim_C7 [[[1, 2]], [[3, 4]], [[5, 6]]] [0, 1, 0] [2, 3, 2] 1
    rfl rfl (by decide) (by decide)

/-- C9: when consecutive windows of a trial never overlap (each
within-trial successor's stop offset advances by exactly the window's
row length), the reassembler's output equals, trial by trial, the plain
concatenation of that trial's windows along the time axis, with no
columns dropped. -/
theorem claim_C9 (preds : List (Mat α)) (idxs stops : List Nat)
    (rows : Nat) (h1 : preds.length = idxs.length)
    (h2 : idxs.length = stops.length)
    (hwf : wfIdxs (preds.zip (idxs.zip stops)) = true)
    (hr : ∀ m ∈ preds, m.length = rows)
    (hno : ∀ run ∈ splitTrials (preds.zip (idxs.zip stops)),
      noOverlapRun run = true) :
    ∃ outs, trial_preds_from_supercrop_preds preds idxs stops = .ok outs ∧
      plainTrialsResult (splitTrials (preds.zip (idxs.zip stops))) =
        .ok outs := by
  obtain ⟨outs, hres, _, htr⟩ :=
    reassemble_wf_ok preds idxs stops rows h1 h2 hwf hr
  refine ⟨outs, hres, ?_⟩
  rw [← trialsResult_noOverlap _ hno]
  exact htr

/-- C9 witness: two windows, stride equal to the window length. -/
theorem claim_C9_witness :
    ∃ outs, trial_preds_from_supercrop_preds
        ([[[1, 2]], [[3, 4]]] : List (Mat Int)) [0, 1] [2, 4] = .ok outs ∧
      plainTrialsResult (splitTrials
        (([[[1, 2]], [[3, 4]]] : List (Mat Int)).zip
          (([0, 1] : List Nat).zip [2, 4]))) = .ok outs :=
  claim_C9 [[[1, 2]], [[3, 4]]] [0, 1] [2, 4] 1 rfl rfl (by decide)
    (by decide) (by decide)

/-- C6: the reassembler raises on (1) mismatched input sequence lengths
and (2) a window whose index neither continues the previous window's
index nor starts a new trial at 0 — never returning partial output. -/
theorem claim_C6 (preds : List (Mat α)) (idxs stops : List Nat) :
    ((preds.length ≠ idxs.length ∨ idxs.length ≠ stops.length) →
      ∃ e, trial_preds_from_supercrop_preds preds idxs stops = .error e) ∧
    (preds.length = idxs.length → idxs.length = stops.length →
      idxSeqOK idxs = false →
      ∃ e, trial_preds_from_supercrop_preds preds idxs stops =
        .error e) := by
  constructor
  · intro h
    unfold trial_preds_from_supercrop_preds
    by_cases hl1 : preds.length = idxs.length
    · have hl2 : idxs.length ≠ stops.length := by tauto
      exact ⟨"len(i_supercrop_in_trials) != len(i_stop_in_trials)",
        by simp [hl1, hl2]⟩
    · exact ⟨"len(preds) != len(i_supercrop_in_trials)",
        by simp [hl1]⟩
  · intro h1 h2 hseq
    unfold trial_preds_from_supercrop_preds
    simp only [h1, h2, ne_eq, not_true_eq_false, if_false]
    apply reassembleLoop_chain_violation
    rw [chainOKInt_zip preds idxs stops (-1) h1 h2]
    exact hseq

/-- C6 witness: a length mismatch and a bad new-trial index both raise. -/
theorem claim_C6_witness :
    (∃ e, trial_preds_from_supercrop_preds
      ([[[1]]] : List (Mat Int)) [] [] = .error e) ∧
    (∃ e, trial_preds_from_supercrop_preds
      ([[[1]], [[2]]] : List (Mat Int)) [0, 2] [1, 2] = .error e) :=
  ⟨(claim_C6 [[[1]]] [] []).1 (by decide),
   (claim_C6 [[[1]], [[2]]] [0, 2] [1, 2]).2 rfl rfl (by decide)⟩

/-- C2 (amended): for a non-boundary window with `lastStop` set and
`needed = stopOffset - lastStop` satisfying `1 ≤ needed ≤` every row's
length, the loop appends exactly the last `needed` time-steps of the
window (each appended row has length exactly `needed`).  The original
claim also asserted this at `needed = 0`, where the `[:, -0:]` slice
instead degenerates to the whole window (see the counterexample). -/
theorem claim_C2 (p : Mat α) (i s : Nat) (rest : List (Crop α))
    (acc cur : List (Mat α)) (ls : Nat) (k : Int)
    (hsame : (i : Int) = k + 1)
    (hlo : 1 ≤ (s : Int) - (ls : Int))
    (hhi : ∀ row ∈ p, (s : Int) - (ls : Int) ≤ (row.length : Int)) :
    reassembleLoop ((p, i, s) :: rest) acc cur (some ls) k =
      reassembleLoop rest acc
        (cur ++ [p.map (fun row =>
          row.drop (row.length - ((s : Int) - (ls : Int)).toNat))])
        (some s) (i : Int) ∧
    ∀ row ∈ p,
      (row.drop (row.length - ((s : Int) - (ls : Int)).toNat)).length =
        ((s : Int) - (ls : Int)).toNat := by
  constructor
  · rw [reassembleLoop_cons_same p i s rest acc cur (some ls) k hsame]
    have hslice : npColsFromEnd ((s : Int) - (ls : Int)) p =
        p.map (fun row =>
          row.drop (row.length - ((s : Int) - (ls : Int)).toNat)) := by
      unfold npColsFromEnd
      apply List.map_congr_left
      intro row hrow
      have hr := hhi row hrow
      unfold pySliceFrom
      rw [if_pos (by omega : -((s : Int) - (ls : Int)) < 0)]
      congr 1
      omega
    rw [show (match some ls with
        | some ls => npColsFromEnd ((s : Int) - (ls : Int)) p
        | none => p) = npColsFromEnd ((s : Int) - (ls : Int)) p from rfl,
      hslice]
  · intro row hrow
    rw [List.length_drop]
    have hr := hhi row hrow
    omega

/-- C2 witness: `needed = 2` on a 2-column window appends both columns. -/
theorem claim_C2_witness :
    reassembleLoop ([([[3, 4]], 1, 3)] : List (Crop Int)) [] [[[1, 2]]]
        (some 1) 0 =
      reassembleLoop [] [] ([[[1, 2]]] ++ [[[3, 4]].map (fun row =>
        row.drop (row.length - (((3 : Nat) : Int) -
          ((1 : Nat) : Int)).toNat))]) (some 3) ((1 : Nat) : Int) ∧
    ∀ row ∈ ([[3, 4]] : Mat Int),
      (row.drop (row.length - (((3 : Nat) : Int) -
        ((1 : Nat) : Int)).toNat)).length =
        (((3 : Nat) : Int) - ((1 : Nat) : Int)).toNat :=
  claim_C2 [[3, 4]] 1 3 [] [] [[[1, 2]]] 1 0 (by decide) (by decide)
    (by decide)

/-- C2 counterexample: with stop offsets `[2,2]` the second window's
`needed` is `0`; the claim as stated predicts appending zero time-steps
(trial `[[1,2]]`), but the `[:, -0:]` slice keeps the whole window and
the code returns `[[1,2,3,4]]`. -/
theorem claim_C2_counterexample :
    trial_preds_from_supercrop_preds
      ([[[1, 2]], [[3, 4]]] : List (Mat Int)) [0, 1] [2, 2]
      = .ok [[[1, 2, 3, 4]]] ∧
    trial_preds_from_supercrop_preds
      ([[[1, 2]], [[3, 4]]] : List (Mat Int)) [0, 1] [2, 2]
      ≠ .ok [[[1, 2]]] := by
  refine ⟨rfl, fun h => ?_⟩
  have h2 : ([[[1, 2, 3, 4]]] : List (Mat Int)) = [[[1, 2]]] :=
    Except.ok.inj h
  simp at h2

/-- C1: on the single trial `[0,1,2]` with per-window labels
`[10,20,30]`, the epoch-end label extraction returns `[20,30]` — two
labels for one trial, and neither is the label of the trial's window 0.
The claim (and the code's own comment, which says the mask marks where
the window index does not increment by 1) requires `[10]`: the code
tests `np.diff(..., prepend=[1]) != -1` where the intended boundary test
is `!= 1`. -/
theorem claim_C1 :
    extractTrialYs [0, 1, 2] ([10, 20, 30] : List Int) = [20, 30] ∧
    ([0, 1, 2] : List Nat).count 0 = 1 := ⟨rfl, rfl⟩

/-- C3: with caching disabled the scope yields the original net object
itself, unchanged, and performs no teardown; with caching enabled, a
forward-iteration call inside the scope yields exactly the supplied
predictions, in order, moved to the net's device (their payloads
unchanged); and after the scope — whether the body returned or raised —
the `__dict__` override is gone and forward iteration runs the original
class-level method again. -/
theorem claim_C3 (net : Net) (ypreds : List Tensor)
    (body : Net → Except ε ρ × Net) (a : FwdArgs) :
    cacheNetForwardIter net false ypreds body =
      ((body net).1, (body net).2, 0) ∧
    (forwardIterCall
        { net with
          dictForwardIter := some (CacheState.mk ypreds 0 net.device) }
        { positional := a.positional, device := none } ypreds.length).1 =
      ypreds.map (fun t => t.to net.device) ∧
    ((forwardIterCall
        { net with
          dictForwardIter := some (CacheState.mk ypreds 0 net.device) }
        { positional := a.positional, device := none } ypreds.length).1).map
        Tensor.val = ypreds.map Tensor.val ∧
    (cacheNetForwardIter net true ypreds body).2.1.dictForwardIter =
      none ∧
    ∀ (a2 : FwdArgs) (k : Nat),
      forwardIterCall (cacheNetForwardIter net true ypreds body).2.1 a2 k =
        (((cacheNetForwardIter net true ypreds body).2.1.classForwardIter
          a2).take k, (cacheNetForwardIter net true ypreds body).2.1) := by
  refine ⟨?_, ?_, ?_, ?_, ?_⟩
  · rfl
  · simp [forwardIterCall]
  · simp [forwardIterCall, Tensor.to]
  · rfl
  · intro a2 k
    rfl

/-- C5: if the user scoring function raises while running under the
epoch prediction cache, the exception propagates, the scoped override is
nevertheless torn down exactly once (the `__dict__` entry is gone), and
no history entry is recorded for that epoch. -/
theorem claim_C5 (net : Net) (ypreds : List Tensor) (history : List ℚ)
    (scoring : Net → Except String ℚ × Net) (e : String)
    (herr : (scoring { net with
      dictForwardIter := some (CacheState.mk ypreds 0 net.device) }).1 =
      .error e) :
    (scoreAndRecord net ypreds scoring history).1 = .error e ∧
    (scoreAndRecord net ypreds scoring
      history).2.1.dictForwardIter = none ∧
    (scoreAndRecord net ypreds scoring history).2.2.1 = history ∧
    (scoreAndRecord net ypreds scoring history).2.2.2 = 1 := by
  cases hs : scoring { net with
      dictForwardIter := some (CacheState.mk ypreds 0 net.device) } with
  | mk r n2 =>
    have hr : r = .error e := by
      rw [hs] at herr
      simpa using herr
    subst hr
    refine ⟨?_, ?_, ?_, ?_⟩ <;>
      simp [scoreAndRecord, cacheNetForwardIter, hs]

/-- C5 witness: a concrete always-raising scoring function. -/
theorem claim_C5_witness :
    (scoreAndRecord (Net.mk 0 (fun _ => []) none) []
      (fun n => (.error "boom", n)) [1]).1 = .error "boom" ∧
    (scoreAndRecord (Net.mk 0 (fun _ => []) none) []
      (fun n => (.error "boom", n)) [1]).2.1.dictForwardIter = none ∧
    (scoreAndRecord (Net.mk 0 (fun _ => []) none) []
      (fun n => (.error "boom", n)) [1]).2.2.1 = [1] ∧
    (scoreAndRecord (Net.mk 0 (fun _ => []) none) []
      (fun n => (.error "boom", n)) [1]).2.2.2 = 1 :=
  claim_C5 (Net.mk 0 (fun _ => []) none) [] [1]
    (fun n => (.error "boom", n)) "boom" rfl

/-- C10 (amended): inside an enabled caching scope the overridden
forward iteration ignores every argument except the `device=` keyword:
its output and the shared cursor advance depend only on the cached
sequence, the number of entries already consumed, and the effective
device; the positional arguments (the dataset among them) are ignored;
and once the shared sequence is exhausted further calls yield nothing.
The original claim said ALL call arguments are ignored, but the
`device=` keyword is read (see the counterexample). -/
theorem claim_C10 (st : CacheState) (dev : Nat)
    (cls : FwdArgs → List Tensor) (xs ys : List Nat) (dv : Option Nat)
    (k : Nat) :
    forwardIterCall (Net.mk dev cls (some st))
        (FwdArgs.mk xs dv) k =
      (((st.ypreds.drop st.consumed).take k).map
        (fun t => t.to (dv.getD st.defaultDevice)),
       Net.mk dev cls (some (CacheState.mk st.ypreds
         (min (st.consumed + k) st.ypreds.length) st.defaultDevice))) ∧
    forwardIterCall (Net.mk dev cls (some st))
        (FwdArgs.mk xs dv) k =
      forwardIterCall (Net.mk dev cls (some st))
        (FwdArgs.mk ys dv) k ∧
    (st.ypreds.length ≤ st.consumed →
      (forwardIterCall (Net.mk dev cls (some st))
        (FwdArgs.mk xs dv) k).1 = []) := by
  refine ⟨rfl, rfl, fun h => ?_⟩
  simp [forwardIterCall, List.drop_eq_nil_of_le h]

/-- C10 witness: an exhausted cache yields nothing regardless of the
arguments. -/
theorem claim_C10_witness :
    (forwardIterCall (Net.mk 0 (fun _ => [])
      (some (CacheState.mk [Tensor.mk [[5]] 0] 1 0)))
      (FwdArgs.mk [7] none) 3).1 = [] :=
  (claim_C10 (CacheState.mk [Tensor.mk [[5]] 0] 1 0) 0 (fun _ => [])
    [7] [] none 3).2.2 (by decide)

/-- C10 counterexample: two calls identical except for the `device=`
keyword yield different predictions, so the override does not ignore all
of its call arguments. -/
theorem claim_C10_counterexample :
    (forwardIterCall (Net.mk 0 (fun _ => [])
      (some (CacheState.mk [Tensor.mk [[5]] 0] 0 0)))
      (FwdArgs.mk [] (some 1)) 1).1 ≠
    (forwardIterCall (Net.mk 0 (fun _ => [])
      (some (CacheState.mk [Tensor.mk [[5]] 0] 0 0)))
      (FwdArgs.mk [] (some 2)) 1).1 := by
  decide

/-- C4: within one epoch-end event, running the epoch-end hook
sequentially over every sibling callback of a group executes the
expensive path exactly once — triggered by the first instance to run —
and afterwards every instance of the group holds the identical broadcast
trial predictions and labels.  For the trial scorer the group is the
`CroppedTrialEpochScoring` instances on one split (all fresh at epoch
start, the first one's reassembly succeeding); for the post-epoch
retrain scorer it is the `PostEpochTrainScoring` instances (all with
empty buffers, the training set non-empty). -/
theorem claim_C4 (netC : CTESNet) (c0 : CTEScoring)
    (cr : List CTEScoring) (b : Bool) (v : List (Mat ℚ) × List Int)
    (hsplit : ∀ cb ∈ c0 :: cr, cb.on_train = b)
    (hfresh : ∀ cb ∈ c0 :: cr, cb.crops_to_trials_computed = false)
    (hcomp : ctesCompute (ctesPredResults netC c0) = .ok v)
    (netP : PETNet) (p0 : PETScoring) (pr : List PETScoring)
    (hempty : ∀ cb ∈ p0 :: pr, cb.y_preds = [])
    (hbatch : netP.batches ≠ []) :
    (∃ cbs1, ctesRun netC (c0 :: cr) (List.range (c0 :: cr).length) =
        .ok (cbs1, 1) ∧
      ∀ cb ∈ cbs1, cb.y_preds = v.1 ∧ cb.y_trues = v.2 ∧
        cb.crops_to_trials_computed = true) ∧
    (∃ cbs2, petRun netP (p0 :: pr) (List.range (p0 :: pr).length) =
        (cbs2, 1) ∧
      ∀ cb ∈ cbs2, cb.y_preds = netP.batches.map
          (fun bt => netP.evaluationStep bt.1) ∧
        cb.y_trues = netP.batches.map
          (fun bt => p0.target_extractor bt.2)) := by
  constructor
  · refine ⟨_, ctesRun_once netC c0 cr b v hsplit hfresh hcomp, ?_⟩
    intro cb hcb
    obtain ⟨c, _, rfl⟩ := List.mem_map.mp hcb
    exact ⟨rfl, rfl, rfl⟩
  · refine ⟨_, petRun_once netP p0 pr hempty hbatch, ?_⟩
    intro cb hcb
    obtain ⟨c, _, rfl⟩ := List.mem_map.mp hcb
    exact ⟨rfl, rfl⟩

/-- C4 witness: two fresh validation-split trial-scorer siblings and one
retrain-scorer instance over a one-batch training set. -/
theorem claim_C4_witness :
    (∃ cbs1, ctesRun (CTESNet.mk (PredResults.mk [] [] []))
        [CTEScoring.mk false false [([] : Mat ℚ)] [7] [(0, 1)],
         CTEScoring.mk false false [] [] []]
        (List.range 2) = .ok (cbs1, 1) ∧
      ∀ cb ∈ cbs1, cb.y_preds = ([[[]]] : List (Mat ℚ)) ∧
        cb.y_trues = ([] : List Int) ∧
        cb.crops_to_trials_computed = true) ∧
    (∃ cbs2, petRun (PETNet.mk [([[1]], 4)] (fun _ => [9]))
        [PETScoring.mk [] [] (fun z => z)] (List.range 1) = (cbs2, 1) ∧
      ∀ cb ∈ cbs2,
        cb.y_preds = (PETNet.mk [([[1]], 4)]
          (fun _ => [9])).batches.map (fun bt =>
            (PETNet.mk [([[1]], 4)] (fun _ => [9])).evaluationStep bt.1) ∧
        cb.y_trues = (PETNet.mk [([[1]], 4)]
          (fun _ => [9])).batches.map (fun bt =>
            (PETScoring.mk [] [] (fun z => z)).target_extractor bt.2)) :=
  claim_C4 (CTESNet.mk (PredResults.mk [] [] []))
    (CTEScoring.mk false false [([] : Mat ℚ)] [7] [(0, 1)])
    [CTEScoring.mk false false [] [] []] false
    (([[[]]] : List (Mat ℚ)), ([] : List Int))
    (by decide) (by decide) rfl
    (PETNet.mk [([[1]], 4)] (fun _ => [9]))
    (PETScoring.mk [] [] (fun z => z)) []
    (by decide) (by decide)

end Braindecode
